import Mathlib

/-
Verification of the field-extraction core of pass2bitwarden
(src/pass2bw.py and src/defaults.py).

Strings are modelled as `List Char`.  Python dicts (the working record) are
modelled as insertion-ordered association lists: assignment to an existing
key replaces the value in place, assignment to a fresh key appends at the
end, exactly like CPython dict semantics.  The three regular expressions of
the shipped configuration are modelled by hand-derived matcher functions
whose behaviour (including greedy backtracking of the Python `re` engine)
is worked out pattern by pattern below.  Case-insensitivity (`re.I`) is
modelled for ASCII via `Char.toLower`; the exotic Unicode case foldings of
CPython's `re` are out of the model's scope, as are the engine's `KeyError`
paths, which are unreachable from `parse` (noted where relevant).
-/

namespace P2B

abbrev Str := List Char

/-- Python `str.splitlines` line-boundary characters:
LF, CR, VT, FF, FS, GS, RS, NEL, LS, PS ( CRLF is handled as one boundary). -/
def isLineBreak (c : Char) : Bool :=
  c == '\n' || c == '\r' || c == '\x0b' || c == '\x0c' ||
  c == '\x1c' || c == '\x1d' || c == '\x1e' || c == '\x85' ||
  c == '\u2028' || c == '\u2029'

/-- Worker for `splitlines`; `acc` holds the current line reversed. -/
def splitlinesAux : Str → Str → List Str
  | [], acc => if acc.isEmpty then [] else [acc.reverse]
  | '\r' :: '\n' :: rest, acc => acc.reverse :: splitlinesAux rest []
  | c :: rest, acc =>
      if isLineBreak c then acc.reverse :: splitlinesAux rest []
      else splitlinesAux rest (c :: acc)

/-- Python `str.splitlines()` (keepends=False): used at pass2bw.py:66. -/
def splitlines (s : Str) : List Str := splitlinesAux s []

/-- The working record `row` of `parse`: a Python dict from field names to
string values, modelled as an insertion-ordered association list. -/
abbrev Row := List (Str × Str)

/-- Python `row[k]` as a total lookup (first — and only — binding of `k`). -/
def getField : Row → Str → Option Str
  | [], _ => none
  | (k', v) :: rest, k => if k' = k then some v else getField rest k

/-- Python `k in row`. -/
def hasField (row : Row) (k : Str) : Bool := (getField row k).isSome

/-- Python `row[k] = v`: replace in place if the key exists, else append. -/
def setField : Row → Str → Str → Row
  | [], k, v => [(k, v)]
  | (k', v') :: rest, k, v =>
      if k' = k then (k, v) :: rest else (k', v') :: setField rest k v

/-- The key list of a record (Python `row.keys()`). -/
def keys (row : Row) : List Str := row.map Prod.fst

/-- Python `found_fields.add f` (a set; order of elements is irrelevant,
only membership is ever consulted). -/
def addFound (f : Str) (found : List Str) : List Str :=
  if f ∈ found then found else f :: found

/-- Strip a case-insensitive literal (ASCII `re.I`) from the head of a line,
returning the remainder.  The pattern argument comes first. -/
def stripCI : Str → Str → Option Str
  | [], s => some s
  | _, [] => none
  | p :: ps, c :: cs => if c.toLower = p then stripCI ps cs else none

/-- Drop at most one leading space (the trailing greedy `" ?"` of the
url/username patterns). -/
def dropOneSpace : Str → Str
  | ' ' :: r => r
  | r => r

/-- The suffix strictly after the last `':'` of a string, if any.  The greedy
`.*` of `'^(?:user|login|username).* ?: ?(.*)$'` makes the Python engine
bind the capture after the LAST colon of the line. -/
def afterLastColon : Str → Option Str
  | [] => none
  | c :: rest =>
      match afterLastColon rest with
      | some s => some s
      | none => if c = ':' then some rest else none

/-- `re.match('^url ?: ?(.*)$', line, re.I)`, group 1 (defaults.py:27).
After the literal `url` the engine accepts `':'` optionally surrounded by
one space on each side; `(.*)$` captures the rest of the line (lines contain
no newline, so `.` sees every remaining character). -/
def matchUrl (line : Str) : Option Str :=
  match stripCI "url".data line with
  | none => none
  | some r =>
      match r with
      | ' ' :: ':' :: rest => some (dropOneSpace rest)
      | ':' :: rest => some (dropOneSpace rest)
      | _ => none

/-- `re.match('^(?:user|login|username).* ?: ?(.*)$', line, re.I)`, group 1
(defaults.py:28).  The alternative `username` is subsumed by its prefix
`user` (tried first, and the greedy tail succeeds on a superset of inputs),
so the line must start with `user` or `login` (case-insensitive) and contain
a colon after that prefix; the capture is the text after the last colon,
less one leading space. -/
def matchUsername (line : Str) : Option Str :=
  let r? :=
    match stripCI "user".data line with
    | some r => some r
    | none => stripCI "login".data line
  match r? with
  | none => none
  | some r => (afterLastColon r).map dropOneSpace

/-- `re.match(r'otpauth://totp/[^?]+\?secret=([^&]+)', line, re.I)`, group 1
(defaults.py:29).  `[^?]+` cannot cross a question mark, so the literal
`secret=` must follow the first `'?'` after the prefix; the capture is the
maximal nonempty run of non-`'&'` characters after it.  No end anchor. -/
def matchTotp (line : Str) : Option Str :=
  match stripCI "otpauth://totp/".data line with
  | none => none
  | some r =>
      let run := r.takeWhile (fun c => !(c == '?'))
      match run, r.dropWhile (fun c => !(c == '?')) with
      | _ :: _, '?' :: rest =>
          match stripCI "secret=".data rest with
          | none => none
          | some r2 =>
              match r2.takeWhile (fun c => !(c == '&')) with
              | [] => none
              | g => some g
      | _, _ => none

/-- Character class `[A-Za-z0-9-]` of DOMAIN_REGEX (pass2bw.py:15). -/
def isLabelChar (c : Char) : Bool := c.isAlpha || c.isDigit || c == '-'

/-- One repetition `(?!-)[A-Za-z0-9-]{1,63}(?<!-)` of DOMAIN_REGEX:
a 1..63-character run of label characters, no leading or trailing hyphen. -/
def goodLabel (l : Str) : Bool :=
  decide (1 ≤ l.length) && decide (l.length ≤ 63) && l.all isLabelChar &&
  !(l.head? == some '-') && !(l.getLast? == some '-')

/-- Consume one `label '.'` repetition from the head of the string.  Since a
label cannot contain `'.'`, the backtracking engine is forced to take the
maximal run of label characters, which must be followed by a literal dot. -/
def eatLabelDot (cs : Str) : Option Str :=
  match cs.dropWhile isLabelChar with
  | c :: r => if c = '.' ∧ goodLabel (cs.takeWhile isLabelChar) then some r else none
  | [] => none

/-- `[A-Za-z]{2,6}` with no end anchor succeeds exactly when at least two
ASCII letters stand at the current position. -/
def letters2 (cs : Str) : Bool :=
  match cs with
  | a :: b :: _ => a.isAlpha && b.isAlpha
  | _ => false

/-- After at least one `label '.'` has been consumed: either finish with
`[A-Za-z]{2,6}` here, or consume another `label '.'` (the `+` repetition).
Fuel decreases strictly because each repetition consumes ≥ 2 characters. -/
def domRest : Nat → Str → Bool
  | 0, _ => false
  | fuel + 1, cs =>
      letters2 cs ||
        match eatLabelDot cs with
        | some r => domRest fuel r
        | none => false

/-- `re.search(DOMAIN_REGEX, s)` (pass2bw.py:15-16,56): the pattern
`^((?!-)[A-Za-z0-9-]{1,63}(?<!-)\.)+[A-Za-z]{2,6}` is anchored at the start
of the string and has NO end anchor, so it succeeds on any string some
prefix of which has the label/tld shape. -/
def domainSearch (s : Str) : Bool :=
  match eatLabelDot s with
  | some r => domRest s.length r
  | none => false

/-- Declarative reading of the DOMAIN_REGEX match: some prefix of the string
decomposes into one or more good labels each followed by a dot, then 2-6
ASCII letters, then arbitrary trailing text. -/
def specDomainPrefix (n : Str) : Prop :=
  ∃ (ls : List Str) (tld rest : Str),
    ls ≠ [] ∧ (∀ l ∈ ls, goodLabel l = true) ∧
    2 ≤ tld.length ∧ tld.length ≤ 6 ∧ (∀ c ∈ tld, c.isAlpha = true) ∧
    n = (ls.map (fun l => l ++ ['.'])).flatten ++ tld ++ rest

/-- Helper for the correctness proof of `domainSearch`: the tail after the
mandatory first `label '.'` repetition. -/
def RestSpec (cs : Str) : Prop :=
  ∃ (ls : List Str) (tld rest : Str),
    (∀ l ∈ ls, goodLabel l = true) ∧
    2 ≤ tld.length ∧ tld.length ≤ 6 ∧ (∀ c ∈ tld, c.isAlpha = true) ∧
    cs = (ls.map (fun l => l ++ ['.'])).flatten ++ tld ++ rest

/-- `os.path.basename` for POSIX paths: the suffix after the last `'/'`. -/
def basename (p : Str) : Str := (p.reverse.takeWhile (fun c => !(c == '/'))).reverse

/-- `os.path.dirname` for POSIX paths: everything up to and including the
last `'/'`, with trailing slashes stripped unless the head is all slashes. -/
def dirname (p : Str) : Str :=
  let head := (p.reverse.dropWhile (fun c => !(c == '/'))).reverse
  if head.isEmpty then []
  else if head.all (fun c => c == '/') then head
  else (head.reverse.dropWhile (fun c => c == '/')).reverse

/-- Worker for `replaceAll` (fuel-driven; the pattern is nonempty). -/
def replaceAllAux (pat : Str) : Nat → Str → Str
  | 0, s => s
  | _ + 1, [] => []
  | fuel + 1, c :: rest =>
      if pat.isPrefixOf (c :: rest) then
        replaceAllAux pat fuel ((c :: rest).drop pat.length)
      else c :: replaceAllAux pat fuel rest

/-- Python `s.replace(pat, '')`: remove every (left-to-right, non-overlapping)
occurrence of `pat` from `s`.  With an empty pattern Python's replace inserts
empty strings, leaving `s` unchanged. -/
def replaceAll (s pat : Str) : Str :=
  if pat.isEmpty then s else replaceAllAux pat s.length s

/-- Python `s.lstrip('/')`. -/
def lstripSlash (s : Str) : Str := s.dropWhile (fun c => c == '/')

/-- `'\n'.join(lines)` (pass2bw.py:113). -/
def joinNL : List Str → Str
  | [] => []
  | [l] => l
  | l :: ls => l ++ '\n' :: joinNL ls

/-- Modelled from the claim's words (for comparison only, NOT the code):
folder as "the entry's parent directory path with the base directory prefix
stripped and leading path separators removed". -/
def specFolderStrip (base path : Str) : Str :=
  let d := dirname path
  lstripSlash (if base.isPrefixOf d then d.drop base.length else d)

/-- derived field `name` (defaults.py:22): `os.path.basename(path)`. -/
def nameFn (_base path _data : Str) : Str := basename path

/-- derived field `folder` (defaults.py:23):
`os.path.dirname(path).replace(base, '').lstrip('/')`. -/
def folderFn (base path _data : Str) : Str :=
  lstripSlash (replaceAll (dirname path) base)

/-- The injectable field specification (the configuration surface of §6 of
the spec; the module-level configuration of defaults.py). -/
structure FieldSpec where
  csvFields : List Str
  fieldDefaults : List (Str × Str)
  fieldFunctions : List (Str × (Str → Str → Str → Str))
  fieldPatterns : List (Str × (Str → Option Str))
  fallbackField : Str
  firstlineIsLoginPassword : Bool

/-- CSV_FIELDS (defaults.py:4-15). -/
def CSV_FIELDS : List Str :=
  ["name".data, "folder".data, "type".data, "favorite".data, "notes".data,
   "fields".data, "login_totp".data, "login_uri".data, "login_username".data,
   "login_password".data]

/-- FIELD_DEFAULTS (defaults.py:17-19). -/
def FIELD_DEFAULTS : List (Str × Str) := [("type".data, "login".data)]

/-- FIELD_FUNCTIONS (defaults.py:21-24), in dict insertion order. -/
def FIELD_FUNCTIONS : List (Str × (Str → Str → Str → Str)) :=
  [("name".data, nameFn), ("folder".data, folderFn)]

/-- FIELD_PATTERNS (defaults.py:26-30), in dict insertion order. -/
def FIELD_PATTERNS : List (Str × (Str → Option Str)) :=
  [("login_uri".data, matchUrl),
   ("login_username".data, matchUsername),
   ("login_totp".data, matchTotp)]

/-- The shipped configuration (defaults.py; config.py does not exist in the
repository, so the `except ImportError` branch of pass2bw.py:10-13 binds
these values). -/
def defaultSpec : FieldSpec :=
  { csvFields := CSV_FIELDS
    fieldDefaults := FIELD_DEFAULTS
    fieldFunctions := FIELD_FUNCTIONS
    fieldPatterns := FIELD_PATTERNS
    fallbackField := "notes".data
    firstlineIsLoginPassword := true }

/-- One decrypted entry as handed to `parse` (pass2bw.py:44-47):
`path` (extension stripped) and the decrypted `data`. -/
structure PFile where
  path : Str
  data : Str

/-- The observable warning diagnostics printed by `parse`
(pass2bw.py:80 and pass2bw.py:100). -/
inductive Warning
  | emptyFile (path : Str)
  | duplicateField (field : Str) (path : Str)
deriving DecidableEq

/-- The inner `for field, pattern in FIELD_PATTERNS.items()` loop
(pass2bw.py:94-105) for one line.  Returns the updated row, found set and
warning list, plus whether a `break` happened.  Note the duplicate branch
(pass2bw.py:99-101) is a `continue` of THIS loop: it proceeds to the next
pattern. -/
def tryPatterns (path line : Str) :
    List (Str × (Str → Option Str)) → Row → List Str → List Warning →
      Row × List Str × List Warning × Bool
  | [], row, found, warns => (row, found, warns, false)
  | (field, pat) :: rest, row, found, warns =>
      match pat line with
      | some v =>
          if field ∈ found then
            tryPatterns path line rest row found
              (warns ++ [Warning.duplicateField field path])
          else
            (setField row field v, addFound field found, warns, true)
      | none => tryPatterns path line rest row found warns

/-- The first pattern of the list that matches the line AND whose field is
not yet found, together with its captured value: the pattern that claims the
line (reference function used to characterise `tryPatterns`). -/
def findClaim : List (Str × (Str → Option Str)) → Str → List Str → Option (Str × Str)
  | [], _, _ => none
  | (field, pat) :: rest, line, found =>
      match pat line with
      | some v => if field ∈ found then findClaim rest line found else some (field, v)
      | none => findClaim rest line found

/-- The duplicate-field warnings emitted while scanning the pattern list for
one line, up to (not including) the claiming pattern. -/
def dupWarns (path line : Str) :
    List (Str × (Str → Option Str)) → List Str → List Warning
  | [], _ => []
  | (field, pat) :: rest, found =>
      match pat line with
      | some _ =>
          if field ∈ found then
            Warning.duplicateField field path :: dupWarns path line rest found
          else []
      | none => dupWarns path line rest found

/-- The outer `for line in lines` loop with its `for … else` fallback
accumulation (pass2bw.py:94-109). -/
def processLines (pats : List (Str × (Str → Option Str))) (fbf path : Str) :
    List Str → Row → List Str → List Str → List Warning →
      Row × List Str × List Str × List Warning
  | [], row, found, fb, warns => (row, found, fb, warns)
  | line :: rest, row, found, fb, warns =>
      match tryPatterns path line pats row found warns with
      | (row', found', warns', matched) =>
          if matched then processLines pats fbf path rest row' found' fb warns'
          else processLines pats fbf path rest row' (addFound fbf found') (fb ++ [line]) warns'

/-- Reference function for the fallback accumulator: the lines claimed by no
pattern (a line matching only patterns whose fields are already found is
unclaimed too), with the found set evolving as fields are claimed. -/
def unclaimed (pats : List (Str × (Str → Option Str))) :
    List Str → List Str → List Str
  | [], _ => []
  | line :: rest, found =>
      match findClaim pats line found with
      | some (f, _) => unclaimed pats rest (addFound f found)
      | none => line :: unclaimed pats rest found

/-- `_guess_uri` (pass2bw.py:53-58).  `row["name"]` would raise `KeyError`
on a record without a name; that path is unreachable from `parse` (the
derived `name` field is always populated) and is modelled as returning
the empty string. -/
def guessUri (row : Row) : Str :=
  if hasField row "login_uri".data then
    match getField row "name".data with
    | some n => if domainSearch n then n else []
    | none => []
  else []

/-- Default/derived-field initialization of the row (pass2bw.py:72-76). -/
def initRow (spec : FieldSpec) (base : Str) (f : PFile) : Row :=
  let r1 := spec.fieldDefaults.foldl (fun r kv => setField r kv.1 kv.2) []
  spec.fieldFunctions.foldl (fun r kf => setField r kf.1 (kf.2 base f.path f.data)) r1

/-- The first-line-is-password step (pass2bw.py:85-88): remaining lines,
updated row, and the found set. -/
def afterFirstline (spec : FieldSpec) (f : PFile) (row : Row) :
    List Str × Row × List Str :=
  let lines := splitlines f.data
  if spec.firstlineIsLoginPassword then
    match lines with
    | l :: rest => (rest, setField row "login_password".data l,
                    addFound "login_password".data [])
    | [] => ([], row, [])
  else (lines, row, [])

/-- Initialization + first-line step + line loop: the row, found set,
fallback accumulator and warnings after pass2bw.py:109. -/
def contentStage (spec : FieldSpec) (base : Str) (f : PFile) :
    Row × List Str × List Str × List Warning :=
  let row0 := initRow spec base f
  match afterFirstline spec f row0 with
  | (ls, row1, found1) =>
      processLines spec.fieldPatterns spec.fallbackField f.path ls row1 found1 [] []

/-- Fallback-field materialization (pass2bw.py:112-113). -/
def withFallback (spec : FieldSpec) (base : Str) (f : PFile) : Row :=
  match contentStage spec base f with
  | (row2, found2, fb, _) =>
      if spec.fallbackField ∈ found2 then
        setField row2 spec.fallbackField (joinNL fb)
      else row2

/-- The record-assembler fill loop (pass2bw.py:116-118): every schema field
still absent is bound to the empty string. -/
def fillMissing (fields : List Str) (row : Row) : Row :=
  fields.foldl (fun r k => if hasField r k then r else setField r k []) row

/-- The record after assembly (pass2bw.py:116-118). -/
def assembled (spec : FieldSpec) (base : Str) (f : PFile) : Row :=
  fillMissing spec.csvFields (withFallback spec base f)

/-- URI-inference step (pass2bw.py:120-121).  `row['login_uri']` is always
present here for the shipped configuration (`login_uri ∈ CSV_FIELDS`); a
missing key (Python `KeyError`) is modelled as skipping the step. -/
def finalRow (spec : FieldSpec) (base : Str) (f : PFile) : Row :=
  if getField (assembled spec base f) "login_uri".data = some [] then
    setField (assembled spec base f) "login_uri".data (guessUri (assembled spec base f))
  else assembled spec base f

/-- One iteration of the `for file in files` loop of `parse`
(pass2bw.py:63-122): the produced record and the warnings printed for this
entry.  An entry with no lines short-circuits at pass2bw.py:79-82 with only
the default/derived fields populated. -/
def parseFile (spec : FieldSpec) (base : Str) (f : PFile) : Row × List Warning :=
  if (splitlines f.data).isEmpty then
    (initRow spec base f, [Warning.emptyFile f.path])
  else
    (finalRow spec base f, (contentStage spec base f).2.2.2)

/-- `parse(base_dir, files)` (pass2bw.py:60-124): the list of records. -/
def parse (spec : FieldSpec) (base : Str) (files : List PFile) : List Row :=
  files.map (fun f => (parseFile spec base f).1)

/-- Row congruence off one key, used to express that the first line is
excluded from pattern matching (claim C4). -/
def AgreeExcept (k : Str) (r r' : Row) : Prop :=
  ∀ k', k' ≠ k → getField r k' = getField r' k'

end P2B

namespace P2B

/- ### Unfolding equations (all definitional) -/

theorem getField_nil (k : Str) : getField [] k = none := rfl

theorem getField_cons (a b k : Str) (rest : Row) :
    getField ((a, b) :: rest) k = if a = k then some b else getField rest k := rfl

theorem setField_nil (k v : Str) : setField [] k v = [(k, v)] := rfl

theorem setField_cons (a b k v : Str) (rest : Row) :
    setField ((a, b) :: rest) k v =
      if a = k then (k, v) :: rest else (a, b) :: setField rest k v := rfl

theorem keys_nil : keys [] = [] := rfl

theorem keys_cons (a b : Str) (rest : Row) : keys ((a, b) :: rest) = a :: keys rest := rfl

theorem findClaim_nil (line : Str) (found : List Str) :
    findClaim [] line found = none := rfl

theorem findClaim_cons (g : Str) (m : Str → Option Str)
    (rest : List (Str × (Str → Option Str))) (line : Str) (found : List Str) :
    findClaim ((g, m) :: rest) line found =
      match m line with
      | some v => if g ∈ found then findClaim rest line found else some (g, v)
      | none => findClaim rest line found := rfl

theorem dupWarns_nil (path line : Str) (found : List Str) :
    dupWarns path line [] found = [] := rfl

theorem dupWarns_cons (path line g : Str) (m : Str → Option Str)
    (rest : List (Str × (Str → Option Str))) (found : List Str) :
    dupWarns path line ((g, m) :: rest) found =
      match m line with
      | some _ =>
          if g ∈ found then
            Warning.duplicateField g path :: dupWarns path line rest found
          else []
      | none => dupWarns path line rest found := rfl

theorem tryPatterns_nil (path line : Str) (row : Row) (found : List Str)
    (warns : List Warning) :
    tryPatterns path line [] row found warns = (row, found, warns, false) := rfl

theorem tryPatterns_cons (path line g : Str) (m : Str → Option Str)
    (rest : List (Str × (Str → Option Str))) (row : Row) (found : List Str)
    (warns : List Warning) :
    tryPatterns path line ((g, m) :: rest) row found warns =
      match m line with
      | some v =>
          if g ∈ found then
            tryPatterns path line rest row found
              (warns ++ [Warning.duplicateField g path])
          else
            (setField row g v, addFound g found, warns, true)
      | none => tryPatterns path line rest row found warns := rfl

theorem processLines_nil (pats : List (Str × (Str → Option Str))) (fbf path : Str)
    (row : Row) (found fb : List Str) (warns : List Warning) :
    processLines pats fbf path [] row found fb warns = (row, found, fb, warns) := rfl

theorem unclaimed_nil (pats : List (Str × (Str → Option Str))) (found : List Str) :
    unclaimed pats [] found = [] := rfl

theorem unclaimed_cons (pats : List (Str × (Str → Option Str))) (line : Str)
    (rest : List Str) (found : List Str) :
    unclaimed pats (line :: rest) found =
      match findClaim pats line found with
      | some (f, _) => unclaimed pats rest (addFound f found)
      | none => line :: unclaimed pats rest found := rfl

/- ### Basic lemmas about the record and the found set -/

theorem getField_setField (row : Row) (k v k' : Str) :
    getField (setField row k v) k' = if k = k' then some v else getField row k' := by
  induction row with
  | nil =>
    simp only [setField_nil, getField_cons, getField_nil]
  | cons p rest ih =>
    obtain ⟨a, b⟩ := p
    rw [setField_cons]
    by_cases hak : a = k
    · subst hak
      by_cases hkk : a = k' <;> simp [getField_cons, hkk]
    · rw [if_neg hak, getField_cons, getField_cons, ih]
      by_cases hak' : a = k'
      · subst hak'
        have hka : k ≠ a := fun h => hak h.symm
        simp [if_neg hka]
      · simp [hak']

theorem mem_keys (row : Row) (k : Str) : k ∈ keys row ↔ (getField row k).isSome := by
  induction row with
  | nil => simp [keys_nil, getField_nil]
  | cons p rest ih =>
    obtain ⟨a, b⟩ := p
    rw [keys_cons, getField_cons]
    by_cases h : a = k
    · simp [h]
    · have hka : k ≠ a := fun hk => h hk.symm
      simp [h, hka, ih]

theorem mem_keys_setField (row : Row) (k v k' : Str) :
    k' ∈ keys (setField row k v) ↔ k' = k ∨ k' ∈ keys row := by
  rw [mem_keys, mem_keys, getField_setField]
  by_cases h : k = k'
  · subst h
    simp
  · have h' : k' ≠ k := fun hk => h hk.symm
    simp [if_neg h, h']

theorem mem_addFound (x f : Str) (fd : List Str) :
    x ∈ addFound f fd ↔ x = f ∨ x ∈ fd := by
  unfold addFound
  split_ifs with h
  · constructor
    · exact Or.inr
    · rintro (rfl | hx)
      · exact h
      · exact hx
  · simp [List.mem_cons]

/- ### Characterisation of the inner pattern loop -/

theorem findClaim_some (pats : List (Str × (Str → Option Str))) (line : Str)
    (found : List Str) (f v : Str)
    (h : findClaim pats line found = some (f, v)) :
    f ∉ found ∧ ∃ m, (f, m) ∈ pats ∧ m line = some v := by
  induction pats with
  | nil => simp [findClaim_nil] at h
  | cons p rest ih =>
    obtain ⟨g, m⟩ := p
    rw [findClaim_cons] at h
    cases hm : m line with
    | none =>
      rw [hm] at h
      simp only at h
      obtain ⟨h1, m', h2, h3⟩ := ih h
      exact ⟨h1, m', List.mem_cons_of_mem _ h2, h3⟩
    | some w =>
      rw [hm] at h
      simp only at h
      by_cases hg : g ∈ found
      · rw [if_pos hg] at h
        obtain ⟨h1, m', h2, h3⟩ := ih h
        exact ⟨h1, m', List.mem_cons_of_mem _ h2, h3⟩
      · rw [if_neg hg] at h
        obtain ⟨rfl, rfl⟩ : g = f ∧ w = v := by
          simpa [Prod.ext_iff] using h
        exact ⟨hg, m, List.mem_cons_self _ _, hm⟩

theorem findClaim_congr (pats : List (Str × (Str → Option Str))) (line : Str)
    (found₁ found₂ : List Str)
    (h : ∀ x ∈ pats.map Prod.fst, (x ∈ found₁ ↔ x ∈ found₂)) :
    findClaim pats line found₁ = findClaim pats line found₂ := by
  induction pats with
  | nil => simp [findClaim_nil]
  | cons p rest ih =>
    obtain ⟨g, m⟩ := p
    have hg : g ∈ found₁ ↔ g ∈ found₂ := h g (by simp)
    have hrest : ∀ x ∈ rest.map Prod.fst, (x ∈ found₁ ↔ x ∈ found₂) :=
      fun x hx => h x (by simp [hx])
    rw [findClaim_cons, findClaim_cons]
    cases hm : m line with
    | none => exact ih hrest
    | some w =>
      simp only
      by_cases hg1 : g ∈ found₁
      · rw [if_pos hg1, if_pos (hg.mp hg1)]
        exact ih hrest
      · rw [if_neg hg1, if_neg (fun c => hg1 (hg.mpr c))]

theorem tryPatterns_claim (path line : Str) (pats : List (Str × (Str → Option Str)))
    (row : Row) (found : List Str) (warns : List Warning) (f v : Str)
    (h : findClaim pats line found = some (f, v)) :
    tryPatterns path line pats row found warns =
      (setField row f v, addFound f found, warns ++ dupWarns path line pats found, true) := by
  induction pats generalizing warns with
  | nil => simp [findClaim_nil] at h
  | cons p rest ih =>
    obtain ⟨g, m⟩ := p
    rw [findClaim_cons] at h
    rw [tryPatterns_cons, dupWarns_cons]
    cases hm : m line with
    | none =>
      rw [hm] at h
      simp only at h
      exact ih warns h
    | some w =>
      rw [hm] at h
      simp only at h ⊢
      by_cases hg : g ∈ found
      · rw [if_pos hg] at h
        rw [if_pos hg, if_pos hg, ih (warns ++ [Warning.duplicateField g path]) h]
        simp
      · rw [if_neg hg] at h
        obtain ⟨rfl, rfl⟩ : g = f ∧ w = v := by
          simpa [Prod.ext_iff] using h
        rw [if_neg hg, if_neg hg]
        simp

theorem tryPatterns_noclaim (path line : Str) (pats : List (Str × (Str → Option Str)))
    (row : Row) (found : List Str) (warns : List Warning)
    (h : findClaim pats line found = none) :
    tryPatterns path line pats row found warns =
      (row, found, warns ++ dupWarns path line pats found, false) := by
  induction pats generalizing warns with
  | nil => simp [tryPatterns_nil, dupWarns_nil]
  | cons p rest ih =>
    obtain ⟨g, m⟩ := p
    rw [findClaim_cons] at h
    rw [tryPatterns_cons, dupWarns_cons]
    cases hm : m line with
    | none =>
      rw [hm] at h
      simp only at h
      exact ih warns h
    | some w =>
      rw [hm] at h
      simp only at h ⊢
      by_cases hg : g ∈ found
      · rw [if_pos hg] at h
        rw [if_pos hg, if_pos hg, ih (warns ++ [Warning.duplicateField g path]) h]
        simp
      · rw [if_neg hg] at h
        simp at h

theorem processLines_cons_claim (pats : List (Str × (Str → Option Str)))
    (fbf path line : Str) (rest : List Str) (row : Row) (found fb : List Str)
    (warns : List Warning) (f v : Str)
    (h : findClaim pats line found = some (f, v)) :
    processLines pats fbf path (line :: rest) row found fb warns =
      processLines pats fbf path rest (setField row f v) (addFound f found) fb
        (warns ++ dupWarns path line pats found) := by
  show (match tryPatterns path line pats row found warns with
      | (row', found', warns', matched) =>
          if matched then processLines pats fbf path rest row' found' fb warns'
          else processLines pats fbf path rest row' (addFound fbf found') (fb ++ [line]) warns') = _
  rw [tryPatterns_claim path line pats row found warns f v h]
  rfl

theorem processLines_cons_noclaim (pats : List (Str × (Str → Option Str)))
    (fbf path line : Str) (rest : List Str) (row : Row) (found fb : List Str)
    (warns : List Warning)
    (h : findClaim pats line found = none) :
    processLines pats fbf path (line :: rest) row found fb warns =
      processLines pats fbf path rest row (addFound fbf found) (fb ++ [line])
        (warns ++ dupWarns path line pats found) := by
  show (match tryPatterns path line pats row found warns with
      | (row', found', warns', matched) =>
          if matched then processLines pats fbf path rest row' found' fb warns'
          else processLines pats fbf path rest row' (addFound fbf found') (fb ++ [line]) warns') = _
  rw [tryPatterns_noclaim path line pats row found warns h]
  rfl


/- ### Global lemmas about the line loop -/

theorem processLines_untouched (pats : List (Str × (Str → Option Str)))
    (fbf path k : Str) (hk : k ∉ pats.map Prod.fst) (lines : List Str) :
    ∀ row found fb warns,
      getField (processLines pats fbf path lines row found fb warns).1 k = getField row k := by
  induction lines with
  | nil =>
    intro row found fb warns
    rw [processLines_nil]
  | cons line rest ih =>
    intro row found fb warns
    cases hc : findClaim pats line found with
    | none =>
      rw [processLines_cons_noclaim pats fbf path line rest row found fb warns hc, ih]
    | some fv =>
      obtain ⟨f, v⟩ := fv
      rw [processLines_cons_claim pats fbf path line rest row found fb warns f v hc, ih,
        getField_setField]
      have hf : f ∈ pats.map Prod.fst := by
        obtain ⟨_, m, hm, _⟩ := findClaim_some pats line found f v hc
        exact List.mem_map_of_mem Prod.fst hm
      have hfk : f ≠ k := fun h => hk (h ▸ hf)
      rw [if_neg hfk]

theorem processLines_keys (pats : List (Str × (Str → Option Str)))
    (fbf path : Str) (lines : List Str) :
    ∀ row found fb warns k,
      k ∈ keys (processLines pats fbf path lines row found fb warns).1 →
      k ∈ keys row ∨ k ∈ pats.map Prod.fst := by
  induction lines with
  | nil =>
    intro row found fb warns k hmem
    rw [processLines_nil] at hmem
    exact Or.inl hmem
  | cons line rest ih =>
    intro row found fb warns k hmem
    cases hc : findClaim pats line found with
    | none =>
      rw [processLines_cons_noclaim pats fbf path line rest row found fb warns hc] at hmem
      exact ih _ _ _ _ _ hmem
    | some fv =>
      obtain ⟨f, v⟩ := fv
      rw [processLines_cons_claim pats fbf path line rest row found fb warns f v hc] at hmem
      have hf : f ∈ pats.map Prod.fst := by
        obtain ⟨_, m, hm, _⟩ := findClaim_some pats line found f v hc
        exact List.mem_map_of_mem Prod.fst hm
      rcases ih _ _ _ _ _ hmem with hin | hin
      · rcases (mem_keys_setField row f v k).mp hin with rfl | hin2
        · exact Or.inr hf
        · exact Or.inl hin2
      · exact Or.inr hin

theorem processLines_found_mono (pats : List (Str × (Str → Option Str)))
    (fbf path : Str) (lines : List Str) :
    ∀ row found fb warns x, x ∈ found →
      x ∈ (processLines pats fbf path lines row found fb warns).2.1 := by
  induction lines with
  | nil =>
    intro row found fb warns x hx
    rw [processLines_nil]
    exact hx
  | cons line rest ih =>
    intro row found fb warns x hx
    cases hc : findClaim pats line found with
    | none =>
      rw [processLines_cons_noclaim pats fbf path line rest row found fb warns hc]
      exact ih _ _ _ _ _ ((mem_addFound x fbf found).mpr (Or.inr hx))
    | some fv =>
      obtain ⟨f, v⟩ := fv
      rw [processLines_cons_claim pats fbf path line rest row found fb warns f v hc]
      exact ih _ _ _ _ _ ((mem_addFound x f found).mpr (Or.inr hx))

theorem unclaimed_congr (pats : List (Str × (Str → Option Str))) (lines : List Str) :
    ∀ found₁ found₂,
      (∀ x ∈ pats.map Prod.fst, (x ∈ found₁ ↔ x ∈ found₂)) →
      unclaimed pats lines found₁ = unclaimed pats lines found₂ := by
  induction lines with
  | nil => intro _ _ _; simp [unclaimed_nil]
  | cons line rest ih =>
    intro found₁ found₂ h
    rw [unclaimed_cons, unclaimed_cons, findClaim_congr pats line found₁ found₂ h]
    cases hc : findClaim pats line found₂ with
    | none =>
      simp only
      rw [ih found₁ found₂ h]
    | some fv =>
      obtain ⟨f, v⟩ := fv
      simp only
      refine ih (addFound f found₁) (addFound f found₂) ?_
      intro x hx
      rw [mem_addFound, mem_addFound]
      exact or_congr Iff.rfl (h x hx)

theorem processLines_fb (pats : List (Str × (Str → Option Str))) (fbf path : Str)
    (hfb : fbf ∉ pats.map Prod.fst) (lines : List Str) :
    ∀ row found fb warns,
      (processLines pats fbf path lines row found fb warns).2.2.1 =
        fb ++ unclaimed pats lines found := by
  induction lines with
  | nil =>
    intro row found fb warns
    simp [processLines_nil, unclaimed_nil]
  | cons line rest ih =>
    intro row found fb warns
    rw [unclaimed_cons]
    cases hc : findClaim pats line found with
    | some fv =>
      obtain ⟨f, v⟩ := fv
      rw [processLines_cons_claim pats fbf path line rest row found fb warns f v hc, ih]
    | none =>
      rw [processLines_cons_noclaim pats fbf path line rest row found fb warns hc, ih]
      have hcong : unclaimed pats rest (addFound fbf found) = unclaimed pats rest found := by
        refine unclaimed_congr pats rest (addFound fbf found) found ?_
        intro x hx
        rw [mem_addFound]
        have : x ≠ fbf := fun h => hfb (h ▸ hx)
        simp [this]
      rw [hcong]
      simp

theorem processLines_fbf_found (pats : List (Str × (Str → Option Str))) (fbf path : Str)
    (hfb : fbf ∉ pats.map Prod.fst) (lines : List Str) :
    ∀ row found fb warns,
      (fbf ∈ (processLines pats fbf path lines row found fb warns).2.1 ↔
        fbf ∈ found ∨ unclaimed pats lines found ≠ []) := by
  induction lines with
  | nil =>
    intro row found fb warns
    simp [processLines_nil, unclaimed_nil]
  | cons line rest ih =>
    intro row found fb warns
    rw [unclaimed_cons]
    cases hc : findClaim pats line found with
    | some fv =>
      obtain ⟨f, v⟩ := fv
      rw [processLines_cons_claim pats fbf path line rest row found fb warns f v hc]
      have hf : f ∈ pats.map Prod.fst := by
        obtain ⟨_, m, hm, _⟩ := findClaim_some pats line found f v hc
        exact List.mem_map_of_mem Prod.fst hm
      have hne : fbf ≠ f := fun h => hfb (h ▸ hf)
      rw [ih]
      simp only [mem_addFound]
      constructor
      · rintro ((rfl | hin) | hu)
        · exact absurd rfl hne
        · exact Or.inl hin
        · exact Or.inr hu
      · rintro (hin | hu)
        · exact Or.inl (Or.inr hin)
        · exact Or.inr hu
    | none =>
      rw [processLines_cons_noclaim pats fbf path line rest row found fb warns hc]
      rw [ih]
      simp [mem_addFound]

theorem AgreeExcept_setField (k a v : Str) (r r' : Row) (h : AgreeExcept k r r') :
    AgreeExcept k (setField r a v) (setField r' a v) := by
  intro k' hk'
  rw [getField_setField, getField_setField]
  by_cases ha : a = k'
  · simp [ha]
  · rw [if_neg ha, if_neg ha]
    exact h k' hk'

theorem processLines_congr (pats : List (Str × (Str → Option Str)))
    (fbf path k : Str) (lines : List Str) :
    ∀ row row' found fb warns, AgreeExcept k row row' →
      AgreeExcept k (processLines pats fbf path lines row found fb warns).1
          (processLines pats fbf path lines row' found fb warns).1 ∧
        (processLines pats fbf path lines row found fb warns).2 =
          (processLines pats fbf path lines row' found fb warns).2 := by
  induction lines with
  | nil =>
    intro row row' found fb warns h
    rw [processLines_nil, processLines_nil]
    exact ⟨h, rfl⟩
  | cons line rest ih =>
    intro row row' found fb warns h
    cases hc : findClaim pats line found with
    | some fv =>
      obtain ⟨f, v⟩ := fv
      rw [processLines_cons_claim pats fbf path line rest row found fb warns f v hc,
        processLines_cons_claim pats fbf path line rest row' found fb warns f v hc]
      exact ih _ _ _ _ _ (AgreeExcept_setField k f v row row' h)
    | none =>
      rw [processLines_cons_noclaim pats fbf path line rest row found fb warns hc,
        processLines_cons_noclaim pats fbf path line rest row' found fb warns hc]
      exact ih _ _ _ _ _ h


/- ### Stage lemmas for the parse pipeline -/

theorem fillMissing_nil (row : Row) : fillMissing [] row = row := rfl

theorem fillMissing_cons (f : Str) (fs : List Str) (row : Row) :
    fillMissing (f :: fs) row =
      fillMissing fs (if hasField row f then row else setField row f []) := rfl

theorem getField_fillMissing (fields : List Str) :
    ∀ (row : Row) (k : Str),
      getField (fillMissing fields row) k =
        match getField row k with
        | some v => some v
        | none => if k ∈ fields then some [] else none := by
  induction fields with
  | nil =>
    intro row k
    rw [fillMissing_nil]
    cases getField row k <;> simp
  | cons f fs ih =>
    intro row k
    rw [fillMissing_cons, ih]
    by_cases hrf : hasField row f
    · rw [if_pos hrf]
      cases hg : getField row k with
      | some v => simp
      | none =>
        have hkf : k ≠ f := by
          intro hh
          subst hh
          rw [hasField, hg] at hrf
          simp at hrf
        simp [List.mem_cons, hkf]
    · rw [if_neg hrf]
      have hfnone : getField row f = none := by
        rcases hgf : getField row f with _ | v
        · rfl
        · exact absurd (by rw [hasField, hgf]; rfl) hrf
      by_cases hfk : f = k
      · subst hfk
        rw [hfnone]
        have h1 : getField (setField row f []) f = some [] := by
          rw [getField_setField, if_pos rfl]
        rw [h1]
        simp [List.mem_cons]
      · have h1 : getField (setField row f []) k = getField row k := by
          rw [getField_setField, if_neg hfk]
        rw [h1]
        cases hg : getField row k with
        | some v => simp
        | none =>
          have hkf : k ≠ f := fun hh => hfk hh.symm
          simp [List.mem_cons, hkf]

theorem initRow_default (base : Str) (f : PFile) :
    initRow defaultSpec base f =
      [("type".data, "login".data), ("name".data, basename f.path),
       ("folder".data, lstripSlash (replaceAll (dirname f.path) base))] := rfl

theorem afterFirstline_default (f : PFile) (row : Row) (l : Str) (rest : List Str)
    (h : splitlines f.data = l :: rest) :
    afterFirstline defaultSpec f row =
      (rest, setField row "login_password".data l, ["login_password".data]) := by
  unfold afterFirstline
  rw [h]
  rfl

theorem contentStage_default (base : Str) (f : PFile) (l : Str) (rest : List Str)
    (h : splitlines f.data = l :: rest) :
    contentStage defaultSpec base f =
      processLines FIELD_PATTERNS "notes".data f.path rest
        (setField (initRow defaultSpec base f) "login_password".data l)
        ["login_password".data] [] [] := by
  unfold contentStage
  show (match afterFirstline defaultSpec f (initRow defaultSpec base f) with
    | (ls, row1, found1) =>
        processLines defaultSpec.fieldPatterns defaultSpec.fallbackField f.path
          ls row1 found1 [] []) = _
  rw [afterFirstline_default f (initRow defaultSpec base f) l rest h]
  rfl

theorem withFallback_eq (spec : FieldSpec) (base : Str) (f : PFile) :
    withFallback spec base f =
      if spec.fallbackField ∈ (contentStage spec base f).2.1 then
        setField (contentStage spec base f).1 spec.fallbackField
          (joinNL (contentStage spec base f).2.2.1)
      else (contentStage spec base f).1 := rfl

theorem assembled_eq (spec : FieldSpec) (base : Str) (f : PFile) :
    assembled spec base f = fillMissing spec.csvFields (withFallback spec base f) := rfl

theorem parseFile_empty (spec : FieldSpec) (base : Str) (f : PFile)
    (h : splitlines f.data = []) :
    parseFile spec base f = (initRow spec base f, [Warning.emptyFile f.path]) := by
  unfold parseFile
  rw [h]
  rfl

theorem parseFile_nonempty (spec : FieldSpec) (base : Str) (f : PFile)
    (h : splitlines f.data ≠ []) :
    parseFile spec base f = (finalRow spec base f, (contentStage spec base f).2.2.2) := by
  have hfalse : (splitlines f.data).isEmpty = false := by
    cases hs : splitlines f.data
    · exact absurd hs h
    · rfl
  unfold parseFile
  rw [hfalse]
  rfl

theorem getField_finalRow_ne (spec : FieldSpec) (base : Str) (f : PFile) (k : Str)
    (hk : k ≠ "login_uri".data) :
    getField (finalRow spec base f) k = getField (assembled spec base f) k := by
  unfold finalRow
  split_ifs with h
  · rw [getField_setField]
    have h2 : "login_uri".data ≠ k := fun hh => hk hh.symm
    rw [if_neg h2]
  · rfl


/- ### Correctness of the DOMAIN_REGEX model -/

theorem takeWhile_all_append (p : Char → Bool) (l : Str) (c : Char) (r : Str)
    (hl : ∀ x ∈ l, p x = true) (hc : p c = false) :
    (l ++ c :: r).takeWhile p = l := by
  induction l with
  | nil => simp [List.takeWhile_cons, hc]
  | cons a l2 ih =>
    have ha := hl a (by simp)
    have hrest : ∀ x ∈ l2, p x = true := fun x hx => hl x (by simp [hx])
    simp [List.takeWhile_cons, ha, ih hrest]

theorem dropWhile_all_append (p : Char → Bool) (l : Str) (c : Char) (r : Str)
    (hl : ∀ x ∈ l, p x = true) (hc : p c = false) :
    (l ++ c :: r).dropWhile p = c :: r := by
  induction l with
  | nil => simp [List.dropWhile_cons, hc]
  | cons a l2 ih =>
    have ha := hl a (by simp)
    have hrest : ∀ x ∈ l2, p x = true := fun x hx => hl x (by simp [hx])
    simp [List.dropWhile_cons, ha, ih hrest]

theorem goodLabel_parts (l : Str) (h : goodLabel l = true) :
    1 ≤ l.length ∧ l.length ≤ 63 ∧ (∀ x ∈ l, isLabelChar x = true) := by
  unfold goodLabel at h
  simp only [Bool.and_eq_true, decide_eq_true_eq, List.all_eq_true] at h
  exact ⟨h.1.1.1.1, h.1.1.1.2, h.1.1.2⟩

theorem isLabelChar_dot : isLabelChar '.' = false := by decide

theorem eatLabelDot_intro (l r : Str) (hl : goodLabel l = true) :
    eatLabelDot (l ++ '.' :: r) = some r := by
  obtain ⟨-, -, hall⟩ := goodLabel_parts l hl
  unfold eatLabelDot
  rw [dropWhile_all_append isLabelChar l '.' r hall isLabelChar_dot,
    takeWhile_all_append isLabelChar l '.' r hall isLabelChar_dot]
  simp [hl]

theorem eatLabelDot_elim (cs r : Str) (h : eatLabelDot cs = some r) :
    ∃ l, goodLabel l = true ∧ cs = l ++ '.' :: r := by
  unfold eatLabelDot at h
  cases hd : cs.dropWhile isLabelChar with
  | nil => rw [hd] at h; simp at h
  | cons c rest =>
    rw [hd] at h
    simp only at h
    split_ifs at h with hcond
    obtain ⟨hc, hgood⟩ := hcond
    subst hc
    have hsplit : cs.takeWhile isLabelChar ++ cs.dropWhile isLabelChar = cs :=
      List.takeWhile_append_dropWhile isLabelChar cs
    obtain rfl : rest = r := by simpa using h
    refine ⟨cs.takeWhile isLabelChar, hgood, ?_⟩
    conv_lhs => rw [← hsplit]
    rw [hd]

theorem letters2_elim (cs : Str) (h : letters2 cs = true) :
    ∃ a b t, cs = a :: b :: t ∧ a.isAlpha = true ∧ b.isAlpha = true := by
  match cs, h with
  | a :: b :: t, h =>
    have h2 : a.isAlpha = true ∧ b.isAlpha = true := by
      simpa [letters2, Bool.and_eq_true] using h
    exact ⟨a, b, t, rfl, h2.1, h2.2⟩

theorem letters2_intro (a b : Char) (t : Str) (ha : a.isAlpha = true)
    (hb : b.isAlpha = true) : letters2 (a :: b :: t) = true := by
  simp [letters2, ha, hb]

theorem domRest_sound (fuel : Nat) :
    ∀ cs : Str, domRest fuel cs = true → RestSpec cs := by
  induction fuel with
  | zero => intro cs h; simp [domRest] at h
  | succ fuel ih =>
    intro cs h
    unfold domRest at h
    rw [Bool.or_eq_true] at h
    rcases h with h2 | h2
    · obtain ⟨a, b, t, rfl, ha, hb⟩ := letters2_elim cs h2
      refine ⟨[], [a, b], t, by simp, by simp, by simp, ?_, by simp⟩
      intro c hc
      rcases List.mem_cons.mp hc with rfl | hc
      · exact ha
      · rcases List.mem_cons.mp hc with rfl | hc
        · exact hb
        · simp at hc
    · cases he : eatLabelDot cs with
      | none => rw [he] at h2; simp at h2
      | some r =>
        rw [he] at h2
        simp only at h2
        obtain ⟨ls, tld, rest, hlab, h2t, h6t, halpha, heq⟩ := ih r h2
        obtain ⟨l, hgood, rfl⟩ := eatLabelDot_elim cs r he
        refine ⟨l :: ls, tld, rest, ?_, h2t, h6t, halpha, ?_⟩
        · intro x hx
          rcases List.mem_cons.mp hx with rfl | hx
          · exact hgood
          · exact hlab x hx
        · rw [heq]
          simp

theorem domRest_complete (ls : List Str) :
    ∀ (tld rest cs : Str) (fuel : Nat),
      (∀ l ∈ ls, goodLabel l = true) → 2 ≤ tld.length →
      (∀ c ∈ tld, c.isAlpha = true) →
      cs = (ls.map (fun l => l ++ ['.'])).flatten ++ tld ++ rest →
      cs.length < fuel → domRest fuel cs = true := by
  induction ls with
  | nil =>
    intro tld rest cs fuel _ h2 halpha heq hlen
    match tld, h2 with
    | a :: b :: t, _ =>
      have hcs : cs = a :: b :: (t ++ rest) := by simpa using heq
      match fuel, hlen with
      | fuel + 1, _ =>
        unfold domRest
        rw [Bool.or_eq_true]
        refine Or.inl ?_
        rw [hcs]
        exact letters2_intro a b (t ++ rest) (halpha a (by simp)) (halpha b (by simp))
  | cons l ls2 ih =>
    intro tld rest cs fuel hlab h2 halpha heq hlen
    have hgood : goodLabel l = true := hlab l (by simp)
    have hcs : cs = l ++ '.' :: ((ls2.map (fun l => l ++ ['.'])).flatten ++ tld ++ rest) := by
      rw [heq]
      simp
    match fuel, hlen with
    | fuel + 1, hlen =>
      unfold domRest
      rw [Bool.or_eq_true]
      refine Or.inr ?_
      rw [hcs, eatLabelDot_intro l _ hgood]
      have hl1 : 1 ≤ l.length := (goodLabel_parts l hgood).1
      have hlen2 : ((ls2.map (fun l => l ++ ['.'])).flatten ++ tld ++ rest).length < fuel := by
        have h3 := congrArg List.length hcs
        simp only [List.length_append, List.length_cons] at h3 ⊢
        omega
      exact ih tld rest _ fuel (fun x hx => hlab x (by simp [hx])) h2 halpha rfl hlen2

theorem domainSearch_iff (s : Str) : domainSearch s = true ↔ specDomainPrefix s := by
  constructor
  · intro h
    unfold domainSearch at h
    cases he : eatLabelDot s with
    | none => rw [he] at h; simp at h
    | some r =>
      rw [he] at h
      simp only at h
      obtain ⟨ls, tld, rest, hlab, h2t, h6t, halpha, heq⟩ := domRest_sound s.length r h
      obtain ⟨l, hgood, rfl⟩ := eatLabelDot_elim s r he
      refine ⟨l :: ls, tld, rest, by simp, ?_, h2t, h6t, halpha, ?_⟩
      · intro x hx
        rcases List.mem_cons.mp hx with rfl | hx
        · exact hgood
        · exact hlab x hx
      · rw [heq]
        simp
  · rintro ⟨ls, tld, rest, hne, hlab, h2t, _h6t, halpha, heq⟩
    match ls, hne with
    | l :: ls2, _ =>
      have hgood : goodLabel l = true := hlab l (by simp)
      have hs : s = l ++ '.' :: ((ls2.map (fun l => l ++ ['.'])).flatten ++ tld ++ rest) := by
        rw [heq]
        simp
      unfold domainSearch
      rw [hs, eatLabelDot_intro l _ hgood]
      simp only
      have hl1 : 1 ≤ l.length := (goodLabel_parts l hgood).1
      refine domRest_complete ls2 tld rest _ (l ++ '.' :: _).length
        (fun x hx => hlab x (by simp [hx])) h2t halpha rfl ?_
      simp only [List.length_append, List.length_cons]
      omega


/- ### Claim C9 -/

/-- C9: extraction is deterministic: for a fixed field specification, base
directory, entry path and entry text, any two runs of the engine produce
identical records — the engine is a pure function of its inputs (the model
has no other state a run could read). -/
theorem c9_deterministic (spec : FieldSpec) (base : Str) (f₁ f₂ : PFile)
    (hp : f₁.path = f₂.path) (hd : f₁.data = f₂.data) :
    parseFile spec base f₁ = parseFile spec base f₂ := by
  cases f₁
  cases f₂
  cases hp
  cases hd
  rfl

theorem c9_witness :
    parseFile defaultSpec "/s".data ⟨"/s/x".data, "p".data⟩ =
      parseFile defaultSpec "/s".data ⟨"/s/x".data, "p".data⟩ :=
  c9_deterministic defaultSpec "/s".data ⟨"/s/x".data, "p".data⟩
    ⟨"/s/x".data, "p".data⟩ rfl rfl

/- ### Claim C10 -/

/-- C10: for an entry whose text yields no lines, the record returned by
parse contains exactly the keys populated by defaults and derived functions
— type, name and folder, in that order — and no others; in particular
login_uri is absent (so URI inference never contributed), whatever the
name derived from the path looks like. -/
theorem c10_empty_entry (base : Str) (f : PFile) (h : splitlines f.data = []) :
    keys (parseFile defaultSpec base f).1 =
        ["type".data, "name".data, "folder".data] ∧
      getField (parseFile defaultSpec base f).1 "login_uri".data = none := by
  rw [parseFile_empty defaultSpec base f h]
  constructor
  · rw [initRow_default]
    rfl
  · rw [initRow_default]
    rfl

theorem c10_witness :
    keys (parseFile defaultSpec "/s".data ⟨"/s/example.com".data, "".data⟩).1 =
        ["type".data, "name".data, "folder".data] ∧
      getField (parseFile defaultSpec "/s".data ⟨"/s/example.com".data, "".data⟩).1
        "login_uri".data = none :=
  c10_empty_entry "/s".data ⟨"/s/example.com".data, "".data⟩ rfl

/- ### Claim C3 -/

/-- C3 counterexample: the claim says a record named "notes.txt" with
login_uri left empty keeps login_uri = ""; in fact DOMAIN_REGEX has no end
anchor, "notes" is a good label and "txt" is 2–6 letters, so _guess_uri
returns "notes.txt" verbatim, both directly and through parse. -/
theorem c3_counterexample :
    guessUri [("login_uri".data, []), ("name".data, "notes.txt".data)] =
        "notes.txt".data ∧
      getField (parseFile defaultSpec "/s".data ⟨"/s/notes.txt".data, "p".data⟩).1
          "login_uri".data = some ("notes.txt".data) ∧
      "notes.txt".data ≠ ([] : Str) := by
  refine ⟨by decide, by decide, by decide⟩

/-- C3 (amended): _guess_uri returns the record's name verbatim exactly when
some PREFIX of the name has the domain shape — one or more labels of 1–63
alphanumeric-or-hyphen characters with no leading/trailing hyphen, each
followed by a dot, then a run of 2–6 ASCII letters, with arbitrary trailing
text allowed (DOMAIN_REGEX has no end anchor) — and returns the empty string
otherwise.  In particular name "example.com" is returned verbatim, and so is
name "notes.txt". -/
theorem c3_amended_guess_uri (row : Row) (u n : Str)
    (hu : getField row "login_uri".data = some u)
    (hn : getField row "name".data = some n) :
    (specDomainPrefix n → guessUri row = n) ∧
    (¬ specDomainPrefix n → guessUri row = []) := by
  have hhas : hasField row "login_uri".data = true := by
    rw [hasField, hu]
    rfl
  constructor
  · intro hspec
    have hd : domainSearch n = true := (domainSearch_iff n).mpr hspec
    simp [guessUri, hhas, hn, hd]
  · intro hspec
    have hd : domainSearch n = false := by
      rcases hb : domainSearch n
      · rfl
      · exact absurd ((domainSearch_iff n).mp hb) hspec
    simp [guessUri, hhas, hn, hd]

theorem c3_witness :
    guessUri [("login_uri".data, []), ("name".data, "example.com".data)] =
      "example.com".data := by
  have hspec : specDomainPrefix "example.com".data :=
    ⟨["example".data], "com".data, [], by decide, by decide, by decide,
      by decide, by decide, by decide⟩
  exact (c3_amended_guess_uri [("login_uri".data, []),
    ("name".data, "example.com".data)] [] "example.com".data rfl rfl).1 hspec


/- ### Value-preservation helpers through the pipeline stages -/

theorem getField_withFallback_ne (spec : FieldSpec) (base : Str) (f : PFile) (k : Str)
    (hk : k ≠ spec.fallbackField) :
    getField (withFallback spec base f) k = getField (contentStage spec base f).1 k := by
  rw [withFallback_eq]
  split_ifs with h
  · rw [getField_setField]
    have h2 : spec.fallbackField ≠ k := fun hh => hk hh.symm
    rw [if_neg h2]
  · rfl

theorem getField_final_of_withFallback (spec : FieldSpec) (base : Str) (f : PFile)
    (k v : Str) (hk : k ≠ "login_uri".data)
    (hv : getField (withFallback spec base f) k = some v) :
    getField (finalRow spec base f) k = some v := by
  rw [getField_finalRow_ne spec base f k hk, assembled_eq,
    getField_fillMissing spec.csvFields (withFallback spec base f) k, hv]

theorem getField_after_content (base : Str) (f : PFile) (l : Str) (rest : List Str)
    (h : splitlines f.data = l :: rest) (k : Str)
    (hk : k ∉ FIELD_PATTERNS.map Prod.fst) :
    getField (contentStage defaultSpec base f).1 k =
      getField (setField (initRow defaultSpec base f) "login_password".data l) k := by
  rw [contentStage_default base f l rest h]
  exact processLines_untouched FIELD_PATTERNS "notes".data f.path k hk rest _ _ _ _

theorem splitlines_ne_nil (f : PFile) (l : Str) (rest : List Str)
    (h : splitlines f.data = l :: rest) : splitlines f.data ≠ [] := by
  rw [h]
  exact List.cons_ne_nil l rest

theorem getField_parseFile_untouched (base : Str) (f : PFile) (l : Str)
    (rest : List Str) (h : splitlines f.data = l :: rest) (k v : Str)
    (hk1 : k ∉ FIELD_PATTERNS.map Prod.fst) (hk2 : k ≠ "notes".data)
    (hk3 : k ≠ "login_uri".data)
    (hv : getField (setField (initRow defaultSpec base f) "login_password".data l) k =
      some v) :
    getField (parseFile defaultSpec base f).1 k = some v := by
  have hr : (parseFile defaultSpec base f).1 = finalRow defaultSpec base f := by
    rw [parseFile_nonempty defaultSpec base f (splitlines_ne_nil f l rest h)]
  rw [hr]
  have hk2' : k ≠ defaultSpec.fallbackField := hk2
  refine getField_final_of_withFallback defaultSpec base f k v hk3 ?_
  rw [getField_withFallback_ne defaultSpec base f k hk2',
    getField_after_content base f l rest h k hk1]
  exact hv

/- ### Congruence helpers (first-line invariance) -/

theorem guessUri_congr (r r' : Row)
    (hlu : getField r "login_uri".data = getField r' "login_uri".data)
    (hname : getField r "name".data = getField r' "name".data) :
    guessUri r = guessUri r' := by
  unfold guessUri
  rw [hasField, hasField, hlu, hname]

theorem fillMissing_congr (fields : List Str) (k : Str) :
    ∀ r r', AgreeExcept k r r' →
      (getField r k).isSome = (getField r' k).isSome →
      AgreeExcept k (fillMissing fields r) (fillMissing fields r') ∧
        (getField (fillMissing fields r) k).isSome =
          (getField (fillMissing fields r') k).isSome := by
  induction fields with
  | nil =>
    intro r r' h hs
    rw [fillMissing_nil, fillMissing_nil]
    exact ⟨h, hs⟩
  | cons fl fs ih =>
    intro r r' h hs
    rw [fillMissing_cons, fillMissing_cons]
    have hhf : hasField r fl = hasField r' fl := by
      by_cases hfk : fl = k
      · subst hfk
        rw [hasField, hasField, hs]
      · rw [hasField, hasField, h fl hfk]
    rw [hhf]
    by_cases hb : hasField r' fl
    · rw [if_pos hb, if_pos hb]
      exact ih r r' h hs
    · rw [if_neg hb, if_neg hb]
      refine ih (setField r fl []) (setField r' fl []) (AgreeExcept_setField k fl [] r r' h) ?_
      rw [getField_setField, getField_setField]
      by_cases hfk : fl = k
      · rw [if_pos hfk, if_pos hfk]
      · rw [if_neg hfk, if_neg hfk, hs]

theorem AgreeExcept_refl (k : Str) (r : Row) : AgreeExcept k r r :=
  fun _ _ => rfl


/- ### Claim C7 -/

/-- C7 counterexample: the claim says folder is the parent directory with the
base-directory PREFIX stripped; the code removes EVERY occurrence of the base
string (str.replace): base "/b" and path "/b/x/b/f" give folder "x", while
prefix-stripping would give "x/b". -/
theorem c7_counterexample :
    getField (parseFile defaultSpec "/b".data ⟨"/b/x/b/f".data, "p".data⟩).1
        "folder".data ≠
      some (specFolderStrip "/b".data "/b/x/b/f".data) := by
  decide

/-- C7 (amended): for every base directory and entry, the record's name field
equals the entry path's basename, and the folder field equals the entry's
parent directory with every occurrence of the base string removed (Python
str.replace with empty replacement) and leading slashes then stripped. -/
theorem c7_amended_name_folder (base : Str) (f : PFile) :
    getField (parseFile defaultSpec base f).1 "name".data = some (basename f.path) ∧
      getField (parseFile defaultSpec base f).1 "folder".data =
        some (lstripSlash (replaceAll (dirname f.path) base)) := by
  cases hs : splitlines f.data with
  | nil =>
    rw [parseFile_empty defaultSpec base f hs, initRow_default]
    exact ⟨rfl, rfl⟩
  | cons l rest =>
    constructor
    · refine getField_parseFile_untouched base f l rest hs "name".data (basename f.path)
        (by decide) (by decide) (by decide) ?_
      rw [initRow_default]
      rfl
    · refine getField_parseFile_untouched base f l rest hs "folder".data
        (lstripSlash (replaceAll (dirname f.path) base))
        (by decide) (by decide) (by decide) ?_
      rw [initRow_default]
      rfl

/- ### First-line invariance machinery and claim C4 -/

theorem finalRow_congr (spec : FieldSpec) (base : Str) (f f' : PFile) (k : Str)
    (h : AgreeExcept k (assembled spec base f) (assembled spec base f'))
    (hlu : getField (assembled spec base f) "login_uri".data =
      getField (assembled spec base f') "login_uri".data)
    (hname : getField (assembled spec base f) "name".data =
      getField (assembled spec base f') "name".data) :
    AgreeExcept k (finalRow spec base f) (finalRow spec base f') := by
  intro k' hk'
  unfold finalRow
  have hguess : guessUri (assembled spec base f) = guessUri (assembled spec base f') :=
    guessUri_congr (assembled spec base f) (assembled spec base f') hlu hname
  by_cases hcond : getField (assembled spec base f') "login_uri".data = some []
  · rw [if_pos (hlu.trans hcond), if_pos hcond, getField_setField, getField_setField, hguess]
    by_cases hluk : "login_uri".data = k'
    · rw [if_pos hluk, if_pos hluk]
    · rw [if_neg hluk, if_neg hluk]
      exact h k' hk'
  · rw [if_neg (fun c => hcond (hlu ▸ c)), if_neg hcond]
    exact h k' hk'

theorem parseFile_firstline_exclusion (base : Str) (f f' : PFile) (l l' : Str)
    (rest : List Str) (hp : f.path = f'.path)
    (h : splitlines f.data = l :: rest) (h' : splitlines f'.data = l' :: rest) :
    AgreeExcept "login_password".data (parseFile defaultSpec base f).1
      (parseFile defaultSpec base f').1 := by
  have hinit : initRow defaultSpec base f = initRow defaultSpec base f' := by
    rw [initRow_default, initRow_default, hp]
  have hrow1 : AgreeExcept "login_password".data
      (setField (initRow defaultSpec base f) "login_password".data l)
      (setField (initRow defaultSpec base f') "login_password".data l') := by
    intro k' hk'
    rw [getField_setField, getField_setField]
    have h2 : "login_password".data ≠ k' := fun hh => hk' hh.symm
    rw [if_neg h2, if_neg h2, hinit]
  have hcs : contentStage defaultSpec base f =
      processLines FIELD_PATTERNS "notes".data f.path rest
        (setField (initRow defaultSpec base f) "login_password".data l)
        ["login_password".data] [] [] := contentStage_default base f l rest h
  have hcs' : contentStage defaultSpec base f' =
      processLines FIELD_PATTERNS "notes".data f.path rest
        (setField (initRow defaultSpec base f') "login_password".data l')
        ["login_password".data] [] [] := by
    rw [contentStage_default base f' l' rest h', hp]
  obtain ⟨hagree0, heq⟩ := processLines_congr FIELD_PATTERNS "notes".data f.path
    "login_password".data rest
    (setField (initRow defaultSpec base f) "login_password".data l)
    (setField (initRow defaultSpec base f') "login_password".data l')
    ["login_password".data] [] [] hrow1
  have hagree : AgreeExcept "login_password".data (contentStage defaultSpec base f).1
      (contentStage defaultSpec base f').1 := by
    rw [hcs, hcs']
    exact hagree0
  have hfound : (contentStage defaultSpec base f).2.1 =
      (contentStage defaultSpec base f').2.1 := by
    rw [hcs, hcs']
    exact congrArg Prod.fst heq
  have hfb : (contentStage defaultSpec base f).2.2.1 =
      (contentStage defaultSpec base f').2.2.1 := by
    rw [hcs, hcs']
    exact congrArg (fun x => x.2.1) heq
  have hwf : AgreeExcept "login_password".data (withFallback defaultSpec base f)
      (withFallback defaultSpec base f') := by
    rw [withFallback_eq, withFallback_eq, hfound, hfb]
    split_ifs with hmem
    · exact AgreeExcept_setField _ _ _ _ _ hagree
    · exact hagree
  have e1 : getField (withFallback defaultSpec base f) "login_password".data = some l := by
    rw [getField_withFallback_ne defaultSpec base f _ (by decide),
      getField_after_content base f l rest h _ (by decide), getField_setField, if_pos rfl]
  have e2 : getField (withFallback defaultSpec base f') "login_password".data = some l' := by
    rw [getField_withFallback_ne defaultSpec base f' _ (by decide),
      getField_after_content base f' l' rest h' _ (by decide), getField_setField, if_pos rfl]
  have hsome : (getField (withFallback defaultSpec base f) "login_password".data).isSome =
      (getField (withFallback defaultSpec base f') "login_password".data).isSome := by
    rw [e1, e2]
    rfl
  obtain ⟨hfill, -⟩ := fillMissing_congr CSV_FIELDS "login_password".data
    (withFallback defaultSpec base f) (withFallback defaultSpec base f') hwf hsome
  have hfill2 : AgreeExcept "login_password".data (assembled defaultSpec base f)
      (assembled defaultSpec base f') := hfill
  have hfin : AgreeExcept "login_password".data (finalRow defaultSpec base f)
      (finalRow defaultSpec base f') :=
    finalRow_congr defaultSpec base f f' "login_password".data hfill2
      (hfill2 "login_uri".data (by decide)) (hfill2 "name".data (by decide))
  have hr : (parseFile defaultSpec base f).1 = finalRow defaultSpec base f := by
    rw [parseFile_nonempty defaultSpec base f (splitlines_ne_nil f l rest h)]
  have hr' : (parseFile defaultSpec base f').1 = finalRow defaultSpec base f' := by
    rw [parseFile_nonempty defaultSpec base f' (splitlines_ne_nil f' l' rest h')]
  rw [hr, hr']
  exact hfin

/-- C4: with firstline_is_password set (as in the shipped configuration), an
entry with at least one line gets login_password bound to the first line
verbatim and marked found; the first line is excluded from all pattern
matching (replacing it by any other line while keeping path and remaining
lines changes the record at login_password only); and on the text
"secret123\nurl: example.com" the record carries login_password "secret123"
and login_uri "example.com". -/
theorem c4_firstline_password :
    (∀ (base : Str) (f : PFile) (l : Str) (rest : List Str),
        splitlines f.data = l :: rest →
        getField (parseFile defaultSpec base f).1 "login_password".data = some l ∧
          "login_password".data ∈ (contentStage defaultSpec base f).2.1) ∧
      (∀ (base : Str) (f f' : PFile) (l l' : Str) (rest : List Str),
        f.path = f'.path → splitlines f.data = l :: rest →
        splitlines f'.data = l' :: rest →
        AgreeExcept "login_password".data (parseFile defaultSpec base f).1
          (parseFile defaultSpec base f').1) ∧
      (getField (parseFile defaultSpec "/s".data
            ⟨"/s/x".data, "secret123\nurl: example.com".data⟩).1 "login_password".data =
          some ("secret123".data) ∧
        getField (parseFile defaultSpec "/s".data
            ⟨"/s/x".data, "secret123\nurl: example.com".data⟩).1 "login_uri".data =
          some ("example.com".data)) := by
  refine ⟨?_, ?_, by decide, by decide⟩
  · intro base f l rest h
    constructor
    · refine getField_parseFile_untouched base f l rest h "login_password".data l
        (by decide) (by decide) (by decide) ?_
      rw [getField_setField, if_pos rfl]
    · rw [contentStage_default base f l rest h]
      refine processLines_found_mono FIELD_PATTERNS "notes".data f.path rest _ _ _ _
        "login_password".data ?_
      simp
  · intro base f f' l l' rest hp h h'
    exact parseFile_firstline_exclusion base f f' l l' rest hp h h'

theorem c4_witness :
    (getField (parseFile defaultSpec "/t".data ⟨"/t/y".data, "pw\nfoo".data⟩).1
          "login_password".data = some ("pw".data) ∧
        "login_password".data ∈
          (contentStage defaultSpec "/t".data ⟨"/t/y".data, "pw\nfoo".data⟩).2.1) ∧
      AgreeExcept "login_password".data
        (parseFile defaultSpec "/t".data ⟨"/t/y".data, "pw\nfoo".data⟩).1
        (parseFile defaultSpec "/t".data ⟨"/t/y".data, "qq\nfoo".data⟩).1 :=
  ⟨c4_firstline_password.1 "/t".data ⟨"/t/y".data, "pw\nfoo".data⟩ "pw".data
      ["foo".data] rfl,
    c4_firstline_password.2.1 "/t".data ⟨"/t/y".data, "pw\nfoo".data⟩
      ⟨"/t/y".data, "qq\nfoo".data⟩ "pw".data "qq".data ["foo".data] rfl rfl rfl⟩


/- ### Prefix-skipping lemmas for the pattern list, claims C2 and C6 -/

theorem findClaim_append_skip (line : Str) (found : List Str)
    (pre rest : List (Str × (Str → Option Str)))
    (hpre : ∀ p ∈ pre, p.2 line = none ∨ p.1 ∈ found) :
    findClaim (pre ++ rest) line found = findClaim rest line found := by
  induction pre with
  | nil => rfl
  | cons q pre2 ih =>
    obtain ⟨g, m⟩ := q
    have hq := hpre (g, m) (by simp)
    have hrest : ∀ p ∈ pre2, p.2 line = none ∨ p.1 ∈ found :=
      fun p hp => hpre p (by simp [hp])
    rw [List.cons_append, findClaim_cons]
    cases hm : m line with
    | none => exact ih hrest
    | some w =>
      simp only
      rcases hq with hq | hq
      · have hq2 : m line = none := hq
        rw [hm] at hq2
        simp at hq2
      · have hq2 : g ∈ found := hq
        rw [if_pos hq2]
        exact ih hrest

theorem dupWarns_append_stop (path line : Str) (found : List Str)
    (pre rest : List (Str × (Str → Option Str))) (f : Str) (mf : Str → Option Str)
    (v : Str) (hf : mf line = some v) (hfn : f ∉ found)
    (hpre : ∀ p ∈ pre, p.2 line = none ∨ p.1 ∈ found) :
    dupWarns path line (pre ++ (f, mf) :: rest) found = dupWarns path line pre found := by
  induction pre with
  | nil =>
    rw [List.nil_append, dupWarns_cons, hf, dupWarns_nil]
    simp [hfn]
  | cons q pre2 ih =>
    obtain ⟨g, m⟩ := q
    have hq := hpre (g, m) (by simp)
    have hrest : ∀ p ∈ pre2, p.2 line = none ∨ p.1 ∈ found :=
      fun p hp => hpre p (by simp [hp])
    rw [List.cons_append, dupWarns_cons, dupWarns_cons]
    cases hm : m line with
    | none => exact ih hrest
    | some w =>
      simp only
      rcases hq with hq | hq
      · have hq2 : m line = none := hq
        rw [hm] at hq2
        simp at hq2
      · have hq2 : g ∈ found := hq
        rw [if_pos hq2, if_pos hq2, ih hrest]

/- ### Claim C2 -/

/-- C2 counterexample: the second "url:" line matches the login_uri pattern
whose field is already found, yet it ends up in the fallback field (notes):
the duplicate branch is a `continue` of the inner pattern loop, so the line
falls through and, unclaimed, is appended to the fallback accumulator —
contradicting "never appended to the fallback accumulator". -/
theorem c2_counterexample :
    getField (parseFile defaultSpec "/s".data
          ⟨"/s/y".data, "p\nurl: a\nurl: b".data⟩).1 "notes".data =
        some ("url: b".data) ∧
      matchUrl "url: b".data = some ("b".data) := by
  decide

/-- C2 (amended): a line matching a pattern whose field is already found
produces exactly one warning diagnostic for that pattern and keeps the
first match's value (row and found set are passed on unchanged), but the
line then FALLS THROUGH to the remaining patterns; if no later pattern
claims it, the line is appended to the fallback accumulator.  The concrete
conjuncts exhibit this: for "p\nurl: a\nurl: b" the fallback accumulator
holds the duplicate line, exactly one duplicate warning is emitted, and
login_uri keeps the first value "a". -/
theorem c2_amended_duplicate_fallthrough :
    (∀ (path line : Str) (pre post : List (Str × (Str → Option Str)))
        (f : Str) (mf : Str → Option Str) (v : Str) (row : Row)
        (found : List Str) (warns : List Warning),
        mf line = some v → f ∈ found → (∀ p ∈ pre, p.2 line = none) →
        tryPatterns path line (pre ++ (f, mf) :: post) row found warns =
          tryPatterns path line post row found
            (warns ++ [Warning.duplicateField f path])) ∧
      ((contentStage defaultSpec "/s".data
            ⟨"/s/x".data, "p\nurl: a\nurl: b".data⟩).2.2.1 = ["url: b".data] ∧
        (contentStage defaultSpec "/s".data
            ⟨"/s/x".data, "p\nurl: a\nurl: b".data⟩).2.2.2 =
          [Warning.duplicateField "login_uri".data "/s/x".data] ∧
        getField (parseFile defaultSpec "/s".data
            ⟨"/s/x".data, "p\nurl: a\nurl: b".data⟩).1 "login_uri".data =
          some ("a".data)) := by
  constructor
  · intro path line pre post f mf v row found warns hm hf hpre
    induction pre with
    | nil =>
      rw [List.nil_append, tryPatterns_cons, hm]
      simp only
      rw [if_pos hf]
    | cons q pre2 ih =>
      obtain ⟨g, m⟩ := q
      have hq : m line = none := hpre (g, m) (by simp)
      have hrest : ∀ p ∈ pre2, p.2 line = none := fun p hp => hpre p (by simp [hp])
      rw [List.cons_append, tryPatterns_cons, hq]
      exact ih hrest
  · refine ⟨by decide, by decide, by decide⟩

theorem c2_witness :
    tryPatterns "p".data "url: x".data
        ([] ++ ("login_uri".data, matchUrl) :: []) [] ["login_uri".data] [] =
      tryPatterns "p".data "url: x".data [] [] ["login_uri".data]
        ([] ++ [Warning.duplicateField "login_uri".data "p".data]) :=
  c2_amended_duplicate_fallthrough.1 "p".data "url: x".data [] []
    "login_uri".data matchUrl "x".data [] ["login_uri".data] []
    (by decide) (by decide) (by simp)

/- ### Claim C6 -/

/-- C6: for any injected ordered pattern list containing two patterns that
both match a line, with neither field yet found (and every pattern before
the earlier of the two either failing on the line or having an
already-found field), the field of the earlier-declared pattern receives
the captured value, and the later pattern is never tried: the result is the
same as if the list ended right after the earlier pattern.  (In the shipped
FIELD_PATTERNS the three patterns are mutually exclusive, so the engine's
priority order is exercised only by injected configurations.) -/
theorem c6_pattern_priority (path line : Str)
    (pre mid post : List (Str × (Str → Option Str)))
    (f g : Str) (mf mg : Str → Option Str) (v w : Str)
    (row : Row) (found : List Str) (warns : List Warning)
    (hf : mf line = some v) (hfn : f ∉ found)
    (hg : mg line = some w) (hgn : g ∉ found)
    (hpre : ∀ p ∈ pre, p.2 line = none ∨ p.1 ∈ found) :
    tryPatterns path line (pre ++ (f, mf) :: (mid ++ (g, mg) :: post)) row found warns =
        (setField row f v, addFound f found,
          warns ++ dupWarns path line pre found, true) ∧
      tryPatterns path line (pre ++ (f, mf) :: (mid ++ (g, mg) :: post)) row found warns =
        tryPatterns path line (pre ++ [(f, mf)]) row found warns := by
  have hclaim : ∀ rest, findClaim (pre ++ (f, mf) :: rest) line found = some (f, v) := by
    intro rest
    rw [findClaim_append_skip line found pre ((f, mf) :: rest) hpre, findClaim_cons, hf]
    simp only
    rw [if_neg hfn]
  have h1 : tryPatterns path line (pre ++ (f, mf) :: (mid ++ (g, mg) :: post))
      row found warns =
      (setField row f v, addFound f found,
        warns ++ dupWarns path line pre found, true) := by
    rw [tryPatterns_claim path line _ row found warns f v (hclaim (mid ++ (g, mg) :: post)),
      dupWarns_append_stop path line found pre (mid ++ (g, mg) :: post) f mf v hf hfn hpre]
  have h2 : tryPatterns path line (pre ++ [(f, mf)]) row found warns =
      (setField row f v, addFound f found,
        warns ++ dupWarns path line pre found, true) := by
    rw [tryPatterns_claim path line _ row found warns f v (hclaim []),
      dupWarns_append_stop path line found pre [] f mf v hf hfn hpre]
  exact ⟨h1, h1.trans h2.symm⟩

theorem c6_witness :
    tryPatterns "p".data "x".data
          ([] ++ ("a".data, fun _ => some "1".data) ::
            ([] ++ ("b".data, fun _ => some "2".data) :: [])) [] [] [] =
        (setField [] "a".data "1".data, addFound "a".data [],
          [] ++ dupWarns "p".data "x".data [] [], true) ∧
      tryPatterns "p".data "x".data
          ([] ++ ("a".data, fun _ => some "1".data) ::
            ([] ++ ("b".data, fun _ => some "2".data) :: [])) [] [] [] =
        tryPatterns "p".data "x".data ([] ++ [("a".data, fun _ => some "1".data)])
          [] [] [] :=
  c6_pattern_priority "p".data "x".data [] [] []
    "a".data "b".data (fun _ => some "1".data) (fun _ => some "2".data)
    "1".data "2".data [] [] []
    rfl (by simp) rfl (by simp) (by simp)


/- ### Key-set helpers and claim C1 -/

theorem isSome_getField_finalRow (spec : FieldSpec) (base : Str) (f : PFile) (k : Str) :
    (getField (finalRow spec base f) k).isSome =
      (getField (assembled spec base f) k).isSome := by
  unfold finalRow
  split_ifs with hcond
  · rw [getField_setField]
    by_cases hlk : "login_uri".data = k
    · rw [if_pos hlk]
      subst hlk
      rw [hcond]
      rfl
    · rw [if_neg hlk]
  · rfl

theorem isSome_getField_fillMissing (fields : List Str) (row : Row) (k : Str) :
    (getField (fillMissing fields row) k).isSome =
      ((getField row k).isSome || decide (k ∈ fields)) := by
  rw [getField_fillMissing]
  cases getField row k with
  | some v => simp
  | none =>
    simp only [Option.isSome_none, Bool.false_or]
    by_cases hf : k ∈ fields
    · simp [hf]
    · simp [hf]

theorem keys_withFallback_sub (spec : FieldSpec) (base : Str) (f : PFile) (k : Str)
    (h : k ∈ keys (withFallback spec base f)) :
    k ∈ keys (contentStage spec base f).1 ∨ k = spec.fallbackField := by
  rw [withFallback_eq] at h
  split_ifs at h with hc
  · rcases (mem_keys_setField _ _ _ _).mp h with h1 | h1
    · exact Or.inr h1
    · exact Or.inl h1
  · exact Or.inl h

theorem keys_initRow_default (base : Str) (f : PFile) :
    keys (initRow defaultSpec base f) = ["type".data, "name".data, "folder".data] := by
  rw [initRow_default]
  rfl

/-- C1 counterexample: for an empty entry the claim demands a record whose
key set equals the full ten-field schema; the code appends the row right
after defaults/derived population and skips assembly, so login_uri — a
schema field — is absent. -/
theorem c1_counterexample :
    getField (parseFile defaultSpec "/s".data ⟨"/s/e".data, "".data⟩).1
        "login_uri".data = none ∧
      "login_uri".data ∈ CSV_FIELDS := by
  decide

/-- C1 (amended): for every entry whose text has at least one line, the
record's key set equals exactly the configured schema CSV_FIELDS, and every
schema field not bound before assembly (neither default, nor derived, nor
content, nor fallback) is bound to the empty string — except login_uri,
which the URI-inference step may replace.  (Entries with empty text skip
assembly entirely; see the counterexample and claim C10.) -/
theorem c1_amended_schema (base : Str) (f : PFile) (hne : splitlines f.data ≠ []) :
    (∀ k, k ∈ keys (parseFile defaultSpec base f).1 ↔ k ∈ CSV_FIELDS) ∧
      (∀ k, k ∈ CSV_FIELDS → getField (withFallback defaultSpec base f) k = none →
        k ≠ "login_uri".data → getField (parseFile defaultSpec base f).1 k = some []) := by
  obtain ⟨l, rest, h⟩ : ∃ l rest, splitlines f.data = l :: rest := by
    rcases hs : splitlines f.data with _ | ⟨a, b⟩
    · exact absurd hs hne
    · exact ⟨a, b, rfl⟩
  have hr : (parseFile defaultSpec base f).1 = finalRow defaultSpec base f := by
    rw [parseFile_nonempty defaultSpec base f hne]
  constructor
  · intro k
    rw [hr, mem_keys, isSome_getField_finalRow, assembled_eq, isSome_getField_fillMissing,
      Bool.or_eq_true]
    constructor
    · rintro (hs | hd)
      · have hk2 := (mem_keys _ k).mpr hs
        rcases keys_withFallback_sub defaultSpec base f k hk2 with h2 | h2
        · have h3 : k ∈ keys (processLines FIELD_PATTERNS "notes".data f.path rest
              (setField (initRow defaultSpec base f) "login_password".data l)
              ["login_password".data] [] []).1 := by
            rw [← contentStage_default base f l rest h]
            exact h2
          rcases processLines_keys FIELD_PATTERNS "notes".data f.path rest _ _ _ _ k h3
            with h4 | h4
          · rcases (mem_keys_setField _ _ _ _).mp h4 with rfl | h5
            · decide
            · rw [keys_initRow_default] at h5
              have hsub : ∀ x ∈ ["type".data, "name".data, "folder".data],
                  x ∈ CSV_FIELDS := by decide
              exact hsub k h5
          · have hsub : ∀ x ∈ FIELD_PATTERNS.map Prod.fst, x ∈ CSV_FIELDS := by decide
            exact hsub k h4
        · subst h2
          decide
      · exact of_decide_eq_true hd
    · intro hk
      exact Or.inr (decide_eq_true hk)
  · intro k hcsv hnone hklu
    rw [hr, getField_finalRow_ne defaultSpec base f k hklu, assembled_eq,
      getField_fillMissing, hnone]
    simp only
    have hcsv2 : k ∈ defaultSpec.csvFields := hcsv
    rw [if_pos hcsv2]

theorem c1_witness :
    (∀ k, k ∈ keys (parseFile defaultSpec "/s".data ⟨"/s/e2".data, "p".data⟩).1 ↔
        k ∈ CSV_FIELDS) ∧
      (∀ k, k ∈ CSV_FIELDS →
        getField (withFallback defaultSpec "/s".data ⟨"/s/e2".data, "p".data⟩) k = none →
        k ≠ "login_uri".data →
        getField (parseFile defaultSpec "/s".data ⟨"/s/e2".data, "p".data⟩).1 k =
          some []) :=
  c1_amended_schema "/s".data ⟨"/s/e2".data, "p".data⟩ (by decide)


/- ### Claim C5 -/

/-- C5 counterexample: the fallback field is NOT exactly the lines that
matched no pattern: a second "user:" line matches the username pattern
(whose field is already found) and still lands in notes. -/
theorem c5_counterexample :
    getField (parseFile defaultSpec "/s".data
          ⟨"/s/z".data, "p\nuser: u\nuser: v".data⟩).1 "notes".data =
        some ("user: v".data) ∧
      matchUsername "user: v".data = some ("v".data) := by
  decide

/-- C5 (amended): for every entry with at least one line, the notes field of
the final record equals the newline-join, in original order, of the
UNCLAIMED lines — those claimed by no pattern, where a pattern claims a line
exactly when it is the first matching pattern whose field is not yet found
(so a line matching only already-found patterns is unclaimed and accumulates
too) — and is the empty string when every processed line was claimed. -/
theorem c5_amended_fallback (base : Str) (f : PFile) (l : Str) (rest : List Str)
    (h : splitlines f.data = l :: rest) :
    (unclaimed FIELD_PATTERNS rest ["login_password".data] = [] →
        getField (parseFile defaultSpec base f).1 "notes".data = some []) ∧
      (unclaimed FIELD_PATTERNS rest ["login_password".data] ≠ [] →
        getField (parseFile defaultSpec base f).1 "notes".data =
          some (joinNL (unclaimed FIELD_PATTERNS rest ["login_password".data]))) := by
  have hcs := contentStage_default base f l rest h
  have hfoundiff : "notes".data ∈ (contentStage defaultSpec base f).2.1 ↔
      "notes".data ∈ ["login_password".data] ∨
        unclaimed FIELD_PATTERNS rest ["login_password".data] ≠ [] := by
    rw [hcs]
    exact processLines_fbf_found FIELD_PATTERNS "notes".data f.path (by decide) rest
      _ _ [] []
  have hfbeq : (contentStage defaultSpec base f).2.2.1 =
      unclaimed FIELD_PATTERNS rest ["login_password".data] := by
    rw [hcs, processLines_fb FIELD_PATTERNS "notes".data f.path (by decide) rest
      _ _ [] []]
    rfl
  have hr : (parseFile defaultSpec base f).1 = finalRow defaultSpec base f := by
    rw [parseFile_nonempty defaultSpec base f (splitlines_ne_nil f l rest h)]
  constructor
  · intro hU
    have hnotmem : "notes".data ∉ (contentStage defaultSpec base f).2.1 := by
      intro hmem
      rcases hfoundiff.mp hmem with hbad | hbad
      · exact absurd hbad (by decide)
      · exact hbad hU
    have hnotmem2 : defaultSpec.fallbackField ∉ (contentStage defaultSpec base f).2.1 :=
      hnotmem
    have hwf : getField (withFallback defaultSpec base f) "notes".data = none := by
      rw [withFallback_eq, if_neg hnotmem2,
        getField_after_content base f l rest h _ (by decide),
        getField_setField, if_neg (by decide), initRow_default]
      rfl
    rw [hr, getField_finalRow_ne defaultSpec base f _ (by decide), assembled_eq,
      getField_fillMissing, hwf]
    rfl
  · intro hU
    have hmem : "notes".data ∈ (contentStage defaultSpec base f).2.1 :=
      hfoundiff.mpr (Or.inr hU)
    have hmem2 : defaultSpec.fallbackField ∈ (contentStage defaultSpec base f).2.1 :=
      hmem
    have hwf : getField (withFallback defaultSpec base f) "notes".data =
        some (joinNL (unclaimed FIELD_PATTERNS rest ["login_password".data])) := by
      have hkey : defaultSpec.fallbackField = "notes".data := rfl
      rw [withFallback_eq, if_pos hmem2, getField_setField, if_pos hkey, hfbeq]
    rw [hr, getField_finalRow_ne defaultSpec base f _ (by decide), assembled_eq,
      getField_fillMissing, hwf]

theorem c5_witness :
    getField (parseFile defaultSpec "/s".data
          ⟨"/s/w".data, "p\nfoo\nurl: u\nbar".data⟩).1 "notes".data =
      some (joinNL (unclaimed FIELD_PATTERNS
        ["foo".data, "url: u".data, "bar".data] ["login_password".data])) :=
  (c5_amended_fallback "/s".data ⟨"/s/w".data, "p\nfoo\nurl: u\nbar".data⟩ "p".data
    ["foo".data, "url: u".data, "bar".data] (by decide)).2 (by decide)

/- ### Claim C8 -/

/-- C8 counterexample: content-extracted values CAN be overwritten: the line
"url:" binds login_uri to "" and marks it found, yet the URI-inference step
replaces it with the guessed "example.com" derived from the entry name. -/
theorem c8_counterexample :
    getField (contentStage defaultSpec "/s".data
          ⟨"/s/example.com".data, "p\nurl:".data⟩).1 "login_uri".data = some [] ∧
      "login_uri".data ∈ (contentStage defaultSpec "/s".data
          ⟨"/s/example.com".data, "p\nurl:".data⟩).2.1 ∧
      getField (parseFile defaultSpec "/s".data
          ⟨"/s/example.com".data, "p\nurl:".data⟩).1 "login_uri".data =
        some ("example.com".data) := by
  decide

/-- C8 (amended): a value already in the row — default or derived included —
is overwritten when a pattern claims the line for that field (content wins);
and once a field is bound by the content stage its value survives assembly
and the fallback write unchanged, with one exception: a content-extracted
EMPTY login_uri is replaced by the URI-inference result. -/
theorem c8_amended_content_wins :
    (∀ (path line : Str) (pats : List (Str × (Str → Option Str))) (row : Row)
        (found : List Str) (warns : List Warning) (f v : Str),
        findClaim pats line found = some (f, v) →
        getField (tryPatterns path line pats row found warns).1 f = some v) ∧
      (∀ (base : Str) (f : PFile) (l : Str) (rest : List Str) (fld v : Str),
        splitlines f.data = l :: rest →
        fld ∈ (contentStage defaultSpec base f).2.1 →
        getField (contentStage defaultSpec base f).1 fld = some v →
        fld ≠ "notes".data →
        ((fld ≠ "login_uri".data ∨ v ≠ []) →
          getField (parseFile defaultSpec base f).1 fld = some v) ∧
          (fld = "login_uri".data → v = [] →
            getField (parseFile defaultSpec base f).1 fld =
              some (guessUri (assembled defaultSpec base f)))) := by
  constructor
  · intro path line pats row found warns f v hclaim
    rw [tryPatterns_claim path line pats row found warns f v hclaim]
    show getField (setField row f v) f = some v
    rw [getField_setField, if_pos rfl]
  · intro base f l rest fld v h hmem hval hneq
    have hwf : getField (withFallback defaultSpec base f) fld = some v := by
      rw [getField_withFallback_ne defaultSpec base f fld hneq]
      exact hval
    have hasm : getField (assembled defaultSpec base f) fld = some v := by
      rw [assembled_eq, getField_fillMissing, hwf]
    have hr : (parseFile defaultSpec base f).1 = finalRow defaultSpec base f := by
      rw [parseFile_nonempty defaultSpec base f (splitlines_ne_nil f l rest h)]
    constructor
    · rintro (hfl | hv)
      · rw [hr, getField_finalRow_ne defaultSpec base f fld hfl]
        exact hasm
      · by_cases hfl : fld = "login_uri".data
        · subst hfl
          rw [hr]
          unfold finalRow
          have hcond : ¬ getField (assembled defaultSpec base f) "login_uri".data =
              some [] := by
            rw [hasm]
            intro hc
            exact hv (by simpa using hc)
          rw [if_neg hcond]
          exact hasm
        · rw [hr, getField_finalRow_ne defaultSpec base f fld hfl]
          exact hasm
    · intro hfl hv
      subst hfl
      subst hv
      rw [hr]
      unfold finalRow
      rw [if_pos hasm, getField_setField, if_pos rfl]

theorem c8_witness :
    getField (tryPatterns "p".data "url: u".data FIELD_PATTERNS [] [] []).1
        "login_uri".data = some ("u".data) ∧
      getField (parseFile defaultSpec "/t".data ⟨"/t/z".data, "p\nuser: bob".data⟩).1
        "login_username".data = some ("bob".data) :=
  ⟨c8_amended_content_wins.1 "p".data "url: u".data FIELD_PATTERNS [] [] []
      "login_uri".data "u".data (by decide),
    (c8_amended_content_wins.2 "/t".data ⟨"/t/z".data, "p\nuser: bob".data⟩ "p".data
        ["user: bob".data] "login_username".data "bob".data (by decide) (by decide)
        (by decide) (by decide)).1 (Or.inl (by decide))⟩

end P2B
